import Mathlib

/-!
# Verification of the WaniKani mock API and dashboard aggregation logic

Shallow embedding of `src/mock_wanikani_api.py` (signup/login over the
process-wide `users`/`tokens` maps) and of `src/wanikani_dashboard/app.py`
(paginated fetch client, stage histogram, review-schedule histogram).

Python dicts are modelled as association lists that preserve insertion
order: assigning to an existing key overwrites the value in place, and
assigning to a fresh key appends it at the end, exactly as CPython does.
-/

namespace Wanikani

/-- Python `d.get(k)` on a dict modelled as an insertion-ordered
association list: the value at the first (unique) occurrence of `k`. -/
def dictGet {α β : Type} [DecidableEq α] (k : α) : List (α × β) → Option β
  | [] => none
  | (k', v) :: rest => if k' = k then some v else dictGet k rest

/-- Python `d[k] = v` on a dict: overwrite in place when the key exists,
append at the end otherwise. -/
def dictInsert {α β : Type} [DecidableEq α] (k : α) (v : β) :
    List (α × β) → List (α × β)
  | [] => [(k, v)]
  | (k', v') :: rest =>
      if k' = k then (k, v) :: rest else (k', v') :: dictInsert k v rest

theorem dictGet_dictInsert_self {α β : Type} [DecidableEq α] (k : α) (v : β)
    (l : List (α × β)) : dictGet k (dictInsert k v l) = some v := by
  induction l with
  | nil => simp [dictGet, dictInsert]
  | cons p rest ih =>
      by_cases h : p.1 = k
      · simp [dictGet, dictInsert, h]
      · simp [dictGet, dictInsert, h, ih]

theorem dictGet_dictInsert_ne {α β : Type} [DecidableEq α] (k k' : α) (v : β)
    (l : List (α × β)) (hne : k ≠ k') :
    dictGet k' (dictInsert k v l) = dictGet k' l := by
  induction l with
  | nil => simp [dictGet, dictInsert, hne]
  | cons p rest ih =>
      by_cases h : p.1 = k
      · simp [dictGet, dictInsert, h, hne]
      · simp [dictGet, dictInsert, h, ih]

theorem mem_dictInsert {α β : Type} [DecidableEq α] {k : α} {v : β}
    {l : List (α × β)} {p : α × β} (hp : p ∈ dictInsert k v l) :
    p = (k, v) ∨ p ∈ l := by
  induction l with
  | nil => simpa [dictInsert] using hp
  | cons q rest ih =>
      by_cases h : q.1 = k
      · simp only [dictInsert, h, if_pos rfl] at hp
        rcases List.mem_cons.mp hp with h1 | h1
        · exact Or.inl h1
        · exact Or.inr (List.mem_cons_of_mem _ h1)
      · simp only [dictInsert, if_neg h] at hp
        rcases List.mem_cons.mp hp with h1 | h1
        · exact Or.inr (h1 ▸ List.mem_cons_self q rest)
        · rcases ih h1 with h2 | h2
          · exact Or.inl h2
          · exact Or.inr (List.mem_cons_of_mem _ h2)

/-! ## Mock provider: `src/mock_wanikani_api.py`

`users` maps a username to its bcrypt hash; `tokens` maps an opaque access
token to a username.  `pwd_context.hash` and `pwd_context.verify` are
passlib library calls, taken as parameters of the embedded operations. -/

/-- An `fastapi.HTTPException`: status code plus detail string. -/
structure HTTPErr where
  status_code : Nat
  detail : String
  deriving DecidableEq, Repr

/-- Constant `fastapi.status.HTTP_400_BAD_REQUEST`. -/
def HTTP_400_BAD_REQUEST : Nat := 400

/-- Constant `fastapi.status.HTTP_401_UNAUTHORIZED`. -/
def HTTP_401_UNAUTHORIZED : Nat := 401

/-- Constant `fastapi.status.HTTP_409_CONFLICT` (the Conflict status of the spec's
error taxonomy; the source never uses it). -/
def HTTP_409_CONFLICT : Nat := 409

/-- The two process-wide maps of the mock provider. -/
structure ApiState where
  users : List (String × String)
  tokens : List (String × String)
  deriving DecidableEq, Repr

/-- Python truthiness of an optional string (`payload.get` returns the
field or `None`): `not x` holds exactly for `None` and `""`. -/
def falsy : Option String → Bool
  | none => true
  | some s => s = ""

/-- Endpoint `signup(payload)` from `src/mock_wanikani_api.py`.
`hash` stands for `pwd_context.hash` (the salted bcrypt hash this call
produces).  Returns the endpoint's result together with the provider
state after the call; a raised `HTTPException` leaves the state as it was. -/
def signup (hash : String → String) (username password : Option String)
    (s : ApiState) : Except HTTPErr String × ApiState :=
  if falsy username || falsy password then
    (.error ⟨400, "username and password required"⟩, s)
  else
    let u := username.getD ""
    let p := password.getD ""
    if (dictGet u s.users).isSome then
      (.error ⟨400, "user already exists"⟩, s)
    else
      (.ok "account created", { s with users := dictInsert u (hash p) s.users })

/-- Outcome of a `login` call that did not return a token: either the
`HTTPException` the route raises itself, or an exception that escapes
the route uncaught — `pwd_context.verify` raises `TypeError` when the
secret is `None`, which FastAPI surfaces as a 500 response, never as a
401. -/
inductive LoginErr where
  | http (e : HTTPErr)
  | typeError (msg : String)
  deriving DecidableEq, Repr

/-- Endpoint `login(payload)` from `src/mock_wanikani_api.py`.
`verify` stands for `pwd_context.verify` on string arguments; `newToken`
is the value `secrets.token_hex(16)` returns on this call.
`users.get(username)` with an absent `username` field yields `None`, and
`not hashed` also holds for an empty stored hash; both short-circuit to
the 401 before `verify` runs.  When a hash was found and is truthy, the
source evaluates `pwd_context.verify(password, hashed)`: a missing
`password` field makes passlib raise `TypeError` out of the route
(state untouched), a present one yields the boolean check. -/
def login (verify : String → String → Bool) (newToken : String)
    (username password : Option String) (s : ApiState) :
    Except LoginErr String × ApiState :=
  match username with
  | none => (.error (.http ⟨401, "invalid credentials"⟩), s)
  | some u =>
      match dictGet u s.users with
      | none => (.error (.http ⟨401, "invalid credentials"⟩), s)
      | some h =>
          if h = "" then (.error (.http ⟨401, "invalid credentials"⟩), s)
          else
            match password with
            | none => (.error (.typeError "secret must be unicode or bytes"), s)
            | some pw =>
                if ¬ verify pw h then
                  (.error (.http ⟨401, "invalid credentials"⟩), s)
                else
                  (.ok newToken, { s with tokens := dictInsert newToken u s.tokens })

/-- Well-formedness of the provider state: every issued token maps to a
username that is present in the `users` map. -/
def TokensValid (s : ApiState) : Prop :=
  ∀ p ∈ s.tokens, (dictGet p.2 s.users).isSome

/-! ## Paginated fetch client: `fetch_assignments` / `fetch_available_lessons`

Both functions run the same loop: `while url: result = _get(url, token);
data.extend(result["data"]); url = result["pages"].get("next_url")`.
The server's response to a GET is modelled as a function from URLs to
pages; `fuel` bounds the number of iterations the loop is allowed, so a
`none` result means the loop did not finish within that many requests. -/

/-- One response page: the `data` list plus `pages.next_url`. -/
structure Page (υ ι : Type) where
  data : List ι
  next_url : Option υ

/-- The pagination loop of `fetch_assignments` (and, identically, of
`fetch_available_lessons`): accumulate `data` of each page in order,
follow `next_url` until it is absent.  `fetchLoop server fuel u = none`
when the loop has not terminated after `fuel` requests. -/
def fetchLoop {υ ι : Type} (server : υ → Page υ ι) : Nat → υ → Option (List ι)
  | 0, _ => none
  | fuel + 1, u =>
      let result := server u
      match result.next_url with
      | none => some result.data
      | some u2 => (fetchLoop server fuel u2).map (result.data ++ ·)

/-- The fetch client terminates on server `server` from URL `u`: some
finite number of requests completes the loop. -/
def FetchTerminates {υ ι : Type} (server : υ → Page υ ι) (u : υ) : Prop :=
  ∃ fuel, (fetchLoop server fuel u).isSome

/-- URL reached after `n` hops of `next_url` from `u` (`none` once the
chain has ended). -/
def nextChain {υ ι : Type} (server : υ → Page υ ι) (u : υ) : Nat → Option υ
  | 0 => some u
  | n + 1 =>
      match nextChain server u n with
      | none => none
      | some v => (server v).next_url

/-- The `next_url` chain from `u` reaches a page with no next-page URL. -/
def ReachesEnd {υ ι : Type} (server : υ → Page υ ι) (u : υ) : Prop :=
  ∃ n v, nextChain server u n = some v ∧ (server v).next_url = none

/-- A server serving a fixed list of pages at URLs `0, 1, 2, …`: page `i`
holds `pages[i]` and advertises `i+1` as next URL unless it is the last
page.  URLs outside the range serve an empty final page. -/
def mkServer {ι : Type} (pages : List (List ι)) (u : Nat) : Page Nat ι :=
  { data := (pages.get? u).getD []
    next_url := if u + 1 < pages.length then some (u + 1) else none }

/-- A server that always advertises its own URL as the next page. -/
def cyclicServer : Unit → Page Unit Nat := fun _ => { data := [], next_url := some () }

/-! ## Stage histogram: `build_srs_dataframe`

An assignment record only matters through `a.get("data", {}).get("srs_stage", 0)`:
an absent `data` object or an absent `srs_stage` field both default to 0,
modelled by an optional stage.  The resulting DataFrame is the list of
(label, count) pairs in the insertion order of the `counts` dict. -/

/-- An assignment as `build_srs_dataframe` reads it: its (possibly
absent) `srs_stage` integer. -/
structure Assignment where
  srs_stage : Option Int
  deriving DecidableEq, Repr

/-- The `stages` dict literal of `build_srs_dataframe`, in source order. -/
def srs_stages : List (Int × String) :=
  [(0, "Leçon"), (1, "Apprenti 1"), (2, "Apprenti 2"), (3, "Apprenti 3"),
   (4, "Apprenti 4"), (5, "Guru 1"), (6, "Guru 2"), (7, "Maître"),
   (8, "Éclairé"), (9, "Brûlé")]

/-- Value `list(stages.values())`: the 10 canonical stage labels in canonical
order. -/
def stage_labels : List String := srs_stages.map Prod.snd

/-- Lookup `stages.get(stage, "Autre")`. -/
def stageName (stage : Int) : String := (dictGet stage srs_stages).getD "Autre"

/-- Function `build_srs_dataframe(assignments)` from `src/wanikani_dashboard/app.py`:
start from `{name: 0 for name in stages.values()}`, then for each
assignment bump `counts[stages.get(srs_stage, "Autre")]`, and return the
DataFrame columns `(SRS, Nombre)` in dict insertion order. -/
def build_srs_dataframe (assignments : List Assignment) : List (String × Nat) :=
  let counts0 := stage_labels.map (fun nm => (nm, 0))
  assignments.foldl
    (fun counts a =>
      let nm := stageName (a.srs_stage.getD 0)
      dictInsert nm ((dictGet nm counts).getD 0 + 1) counts)
    counts0

/-! ## Review-schedule histogram: `build_review_schedule` (typed view)

Instants are seconds since the epoch (`Nat`).  `parse` stands for the
library call `dt.datetime.fromisoformat(s.replace("Z", "+00:00"))`,
returning `none` when it raises (the `except` branch).  Truncating a
datetime to `minute=0, second=0, microsecond=0` is flooring to the hour.
`df.sort_values("Heure")` sorts rows by the hour column; the hour keys of
the dict are pairwise distinct, so any sort yields the one ascending
order, modelled by insertion sort on the first component. -/

/-- One block of `summary["data"]["reviews"]` as the loop body reads it:
the optional `available_at` string and the `subject_ids` list (defaulting
to `[]`). -/
structure ReviewBlock where
  available_at : Option String
  subject_ids : List Nat
  deriving DecidableEq, Repr

/-- Truncation `available_at.replace(minute=0, second=0, microsecond=0)`: floor the
instant to its hour. -/
def hourFloor (t : Nat) : Nat := t / 3600 * 3600

/-- Sort a list of (hour, count) rows ascending by hour
(`df.sort_values("Heure")`). -/
def sortByHour (rows : List (Nat × Nat)) : List (Nat × Nat) :=
  List.insertionSort (fun a b => a.1 ≤ b.1) rows

/-- The body of the `for review_block in reviews` loop: skip the block
when `available_at` is absent, falsy, unparseable, or outside
`[now, now + 24h]`; otherwise add `len(subject_ids)` to its floored
hour's bucket. -/
def scheduleStep (parse : String → Option Nat) (now : Nat)
    (hours : List (Nat × Nat)) (rb : ReviewBlock) : List (Nat × Nat) :=
  match rb.available_at with
  | none => hours
  | some s =>
      if s = "" then hours
      else
        match parse s with
        | none => hours
        | some t =>
            if now ≤ t ∧ t ≤ now + 24 * 3600 then
              dictInsert (hourFloor t)
                ((dictGet (hourFloor t) hours).getD 0 + rb.subject_ids.length) hours
            else hours

/-- Function `build_review_schedule(summary)` from `src/wanikani_dashboard/app.py`,
on the review-block list it iterates: build the `hours` dict block by
block, then emit the rows sorted ascending by hour (an empty dict gives
the empty DataFrame). -/
def build_review_schedule (parse : String → Option Nat) (now : Nat)
    (reviews : List ReviewBlock) : List (Nat × Nat) :=
  sortByHour (reviews.foldl (scheduleStep parse now) [])

/-- A block contributes to the histogram: its timestamp is present,
truthy, parses, and lies in the closed window `[now, now + 24h]`. -/
def inWindow (parse : String → Option Nat) (now : Nat) (rb : ReviewBlock) : Prop :=
  ∃ s t, rb.available_at = some s ∧ s ≠ "" ∧ parse s = some t ∧
    now ≤ t ∧ t ≤ now + 24 * 3600

/-- The floored hour of a contributing block (`none` when skipped). -/
def blockHour (parse : String → Option Nat) (now : Nat) (rb : ReviewBlock) :
    Option Nat :=
  match rb.available_at with
  | none => none
  | some s =>
      if s = "" then none
      else
        match parse s with
        | none => none
        | some t =>
            if now ≤ t ∧ t ≤ now + 24 * 3600 then some (hourFloor t) else none

/-- Total subject count of the in-window blocks flooring to hour `h`. -/
def hourSum (parse : String → Option Nat) (now : Nat)
    (reviews : List ReviewBlock) (h : Nat) : Nat :=
  (((reviews.filter (fun rb => blockHour parse now rb = some h)).map
    (fun rb => rb.subject_ids.length)).sum)

/-- A block has a floored hour exactly when it is kept by the window
filter: its timestamp is present, truthy, parses to some `t` with
`now ≤ t ≤ now + 24h`, and then the hour is `hourFloor t`. -/
theorem blockHour_iff_inWindow (parse : String → Option Nat) (now : Nat)
    (rb : ReviewBlock) :
    (∃ h, blockHour parse now rb = some h) ↔ inWindow parse now rb := by
  constructor
  · rintro ⟨h, hb⟩
    cases ha : rb.available_at with
    | none => simp [blockHour, ha] at hb
    | some s =>
        by_cases hs : s = ""
        · simp [blockHour, ha, hs] at hb
        · cases hp : parse s with
          | none => simp [blockHour, ha, hs, hp] at hb
          | some t =>
              by_cases hw : now ≤ t ∧ t ≤ now + 24 * 3600
              · exact ⟨s, t, ha, hs, hp, hw.1, hw.2⟩
              · simp [blockHour, ha, hs, hp, hw] at hb
  · rintro ⟨s, t, ha, hs, hp, h1, h2⟩
    exact ⟨hourFloor t, by simp [blockHour, ha, hs, hp, h1, h2]⟩

/-! ## Review-schedule histogram on untyped payloads

`build_review_schedule` accesses its `summary` argument dynamically, so
the shape the mock's `get_summary` actually returns matters.  `Json`
models the Python values in play; `pyGet`/`pyIter`/`pyLen` model `.get`,
`for … in …` and `len` with their dynamic failure modes (`.get` on a
non-dict and `len` of a non-sized value raise; iterating a dict yields
its keys as strings). -/

/-- Untyped payload values: Python `None`, strings, ints, lists, dicts. -/
inductive Json where
  | null
  | str (s : String)
  | num (n : Int)
  | arr (xs : List Json)
  | obj (fields : List (String × Json))

/-- The exceptions the dynamic accesses can raise. -/
inductive PyError where
  | attributeError (attr : String)
  | typeError (msg : String)
  deriving DecidableEq, Repr

/-- Python `x.get(key, default)`: defined on dicts, `AttributeError` otherwise. -/
def pyGet (j : Json) (key : String) (default : Json) : Except PyError Json :=
  match j with
  | .obj fields => .ok ((dictGet key fields).getD default)
  | _ => .error (.attributeError "get")

/-- Iteration `for x in j`: a dict yields its keys (strings here), a list its
elements, a string its characters; `None` and ints are not iterable. -/
def pyIter (j : Json) : Except PyError (List Json) :=
  match j with
  | .obj fields => .ok (fields.map (fun f => .str f.1))
  | .arr xs => .ok xs
  | .str s => .ok (s.toList.map (fun c => .str (String.mk [c])))
  | _ => .error (.typeError "not iterable")

/-- Python `len(j)`: defined on lists, strings and dicts. -/
def pyLen (j : Json) : Except PyError Nat :=
  match j with
  | .arr xs => .ok xs.length
  | .str s => .ok s.length
  | .obj fields => .ok fields.length
  | _ => .error (.typeError "has no len")

/-- Python truthiness of a payload value (`if not available_at_str`). -/
def jsonFalsy : Json → Bool
  | .null => true
  | .str s => s = ""
  | .num n => n = 0
  | .arr xs => xs.isEmpty
  | .obj fields => fields.isEmpty

/-- Function `build_review_schedule(summary)` with its accesses kept dynamic:
`summary.get("data", {}).get("reviews", [])`, iteration over whatever
that yields, per-item `.get` calls, the `try`-guarded timestamp parse
(any exception inside the `try` — a failed parse or `.replace` on a
non-string — skips the block), and `len(subject_ids)` outside the `try`. -/
def build_review_schedule_dyn (parse : String → Option Nat) (now : Nat)
    (summary : Json) : Except PyError (List (Nat × Nat)) := do
  let dataField ← pyGet summary "data" (.obj [])
  let reviews ← pyGet dataField "reviews" (.arr [])
  let blocks ← pyIter reviews
  let hours ← blocks.foldlM
    (fun hours rb => do
      let availJ ← pyGet rb "available_at" .null
      let sidsJ ← pyGet rb "subject_ids" (.arr [])
      if jsonFalsy availJ then pure hours
      else
        match availJ with
        | .str s =>
            match parse s with
            | none => pure hours
            | some t =>
                if now ≤ t ∧ t ≤ now + 24 * 3600 then do
                  let n ← pyLen sidsJ
                  pure (dictInsert (hourFloor t)
                    ((dictGet (hourFloor t) hours).getD 0 + n) hours)
                else pure hours
        | _ => pure hours)
    []
  pure (sortByHour hours)

/-- The value `get_summary()` of `src/mock_wanikani_api.py` returns:
`{"data": {"reviews": {"upcoming": [{"available_at": now, "subject_ids": [1, 2]}]}}}`,
with `nowStr` the ISO timestamp string it embeds. -/
def mock_get_summary (nowStr : String) : Json :=
  .obj [("data", .obj [("reviews", .obj [("upcoming",
    .arr [.obj [("available_at", .str nowStr),
                ("subject_ids", .arr [.num 1, .num 2])]])])])]

/-! ## Equation lemmas for the provider operations -/

theorem signup_eq_badfields (hash : String → String) (username password : Option String)
    (s : ApiState) (hf : (falsy username || falsy password) = true) :
    signup hash username password s =
      (.error ⟨400, "username and password required"⟩, s) := by
  simp [signup, hf]

theorem signup_eq_taken (hash : String → String) (u pw : String) (s : ApiState)
    (hu : u ≠ "") (hpw : pw ≠ "")
    (hd : (dictGet u s.users).isSome) :
    signup hash (some u) (some pw) s = (.error ⟨400, "user already exists"⟩, s) := by
  simp [signup, falsy, hu, hpw, hd]

theorem signup_eq_ok (hash : String → String) (u pw : String) (s : ApiState)
    (hu : u ≠ "") (hpw : pw ≠ "")
    (hd : dictGet u s.users = none) :
    signup hash (some u) (some pw) s =
      (.ok "account created", { s with users := dictInsert u (hash pw) s.users }) := by
  simp [signup, falsy, hu, hpw, hd]

theorem login_eq_nouser (verify : String → String → Bool) (tok : String)
    (password : Option String) (s : ApiState) :
    login verify tok none password s =
      (.error (.http ⟨401, "invalid credentials"⟩), s) := rfl

theorem login_eq_unknown (verify : String → String → Bool) (tok : String) (u : String)
    (password : Option String) (s : ApiState) (hget : dictGet u s.users = none) :
    login verify tok (some u) password s =
      (.error (.http ⟨401, "invalid credentials"⟩), s) := by
  simp [login, hget]

theorem login_eq_emptyhash (verify : String → String → Bool) (tok : String) (u : String)
    (password : Option String) (s : ApiState) (hget : dictGet u s.users = some "") :
    login verify tok (some u) password s =
      (.error (.http ⟨401, "invalid credentials"⟩), s) := by
  simp [login, hget]

theorem login_eq_missingpw (verify : String → String → Bool) (tok : String) (u h : String)
    (s : ApiState) (hget : dictGet u s.users = some h) (hE : h ≠ "") :
    login verify tok (some u) none s =
      (.error (.typeError "secret must be unicode or bytes"), s) := by
  simp [login, hget, hE]

theorem login_eq_badpw (verify : String → String → Bool) (tok : String) (u h pw : String)
    (s : ApiState) (hget : dictGet u s.users = some h)
    (hv : verify pw h = false) :
    login verify tok (some u) (some pw) s =
      (.error (.http ⟨401, "invalid credentials"⟩), s) := by
  by_cases hE : h = ""
  · subst hE
    exact login_eq_emptyhash verify tok u (some pw) s hget
  · simp [login, hget, hE, hv]

theorem login_eq_ok (verify : String → String → Bool) (tok : String) (u h pw : String)
    (s : ApiState) (hget : dictGet u s.users = some h)
    (hE : h ≠ "") (hv : verify pw h = true) :
    login verify tok (some u) (some pw) s =
      (.ok tok, { s with tokens := dictInsert tok u s.tokens }) := by
  simp [login, hget, hE, hv]

/-! ## Pagination lemmas -/

theorem optionMap_isSome {α β : Type} (f : α → β) (o : Option α) :
    (o.map f).isSome = o.isSome := by
  cases o <;> rfl

/-- The one-step unfolding of the pagination loop. -/
theorem fetchLoop_succ {υ ι : Type} (server : υ → Page υ ι) (fuel : Nat) (u : υ) :
    fetchLoop server (fuel + 1) u =
      match (server u).next_url with
      | none => some (server u).data
      | some u2 => (fetchLoop server fuel u2).map ((server u).data ++ ·) := rfl

/-- The one-step unfolding of the next-page chain. -/
theorem nextChain_succ {υ ι : Type} (server : υ → Page υ ι) (u : υ) (n : Nat) :
    nextChain server u (n + 1) =
      match nextChain server u n with
      | none => none
      | some v => (server v).next_url := rfl

theorem fetchLoop_cyclic_eq_none : ∀ fuel, fetchLoop cyclicServer fuel () = none := by
  intro fuel
  induction fuel with
  | zero => rfl
  | succ n ih => rw [fetchLoop_succ]; simp [cyclicServer, ih]

theorem nextChain_step {υ ι : Type} (server : υ → Page υ ι) (u u2 : υ)
    (h : (server u).next_url = some u2) :
    ∀ n, nextChain server u (n + 1) = nextChain server u2 n := by
  intro n
  induction n with
  | zero => rw [nextChain_succ]; simp [nextChain, h]
  | succ n ih => rw [nextChain_succ, ih, nextChain_succ]

theorem nextChain_end_none {υ ι : Type} (server : υ → Page υ ι) (u : υ)
    (h : (server u).next_url = none) :
    ∀ n, nextChain server u (n + 1) = none := by
  intro n
  induction n with
  | zero => rw [nextChain_succ]; simp [nextChain, h]
  | succ n ih => rw [nextChain_succ, ih]

theorem reachesEnd_of_fetch {υ ι : Type} (server : υ → Page υ ι) :
    ∀ fuel u, (fetchLoop server fuel u).isSome → ReachesEnd server u := by
  intro fuel
  induction fuel with
  | zero => intro u h; simp [fetchLoop] at h
  | succ n ih =>
      intro u h
      rw [fetchLoop_succ] at h
      cases hn : (server u).next_url with
      | none => exact ⟨0, u, rfl, hn⟩
      | some u2 =>
          rw [hn] at h
          rw [optionMap_isSome] at h
          obtain ⟨k, v, hc, hv⟩ := ih u2 h
          exact ⟨k + 1, v, by rw [nextChain_step server u u2 hn k]; exact hc, hv⟩

theorem fetch_of_reachesEnd {υ ι : Type} (server : υ → Page υ ι) :
    ∀ n u v, nextChain server u n = some v → (server v).next_url = none →
      (fetchLoop server (n + 1) u).isSome := by
  intro n
  induction n with
  | zero =>
      intro u v hc hv
      have : u = v := by simpa [nextChain] using hc
      subst this
      rw [fetchLoop_succ, hv]
      rfl
  | succ n ih =>
      intro u v hc hv
      cases hn : (server u).next_url with
      | none =>
          rw [nextChain_end_none server u hn n] at hc
          exact Option.noConfusion hc
      | some u2 =>
          rw [nextChain_step server u u2 hn n] at hc
          have hrec := ih u2 v hc hv
          rw [fetchLoop_succ, hn, optionMap_isSome]
          exact hrec

theorem fetchLoop_mkServer {ι : Type} (pages : List (List ι)) :
    ∀ fuel i, pages.length - i < fuel →
      fetchLoop (mkServer pages) fuel i = some (pages.drop i).flatten := by
  intro fuel
  induction fuel with
  | zero => intro i h; omega
  | succ n ih =>
      intro i h
      rw [fetchLoop_succ]
      by_cases hlt : i + 1 < pages.length
      · have hi : i < pages.length := by omega
        have hdata : (mkServer pages i).data = pages[i] := by
          simp [mkServer, List.get?_eq_getElem?, List.getElem?_eq_getElem hi]
        have hnext : (mkServer pages i).next_url = some (i + 1) := by
          simp [mkServer, hlt]
        rw [hnext]
        show (fetchLoop (mkServer pages) n (i + 1)).map ((mkServer pages i).data ++ ·) = _
        rw [ih (i + 1) (by omega), hdata]
        simp only [Option.map_some']
        congr 1
        rw [List.drop_eq_getElem_cons hi, List.flatten_cons]
      · have hnext : (mkServer pages i).next_url = none := by
          simp [mkServer, hlt]
        rw [hnext]
        show some (mkServer pages i).data = _
        congr 1
        by_cases hi : i < pages.length
        · have hdata : (mkServer pages i).data = pages[i] := by
            simp [mkServer, List.get?_eq_getElem?, List.getElem?_eq_getElem hi]
          rw [hdata, List.drop_eq_getElem_cons hi,
            List.drop_eq_nil_of_le (by omega : pages.length ≤ i + 1), List.flatten_cons]
          simp
        · have hdata : (mkServer pages i).data = [] := by
            simp [mkServer, List.get?_eq_getElem?,
              List.getElem?_eq_none (by omega : pages.length ≤ i)]
          rw [hdata, List.drop_eq_nil_of_le (by omega : pages.length ≤ i)]
          simp

/-! ## Dict bookkeeping lemmas -/

theorem keys_dictInsert_of_isSome {α β : Type} [DecidableEq α] (k : α) (v : β)
    (l : List (α × β)) (h : (dictGet k l).isSome) :
    (dictInsert k v l).map Prod.fst = l.map Prod.fst := by
  induction l with
  | nil => simp [dictGet] at h
  | cons p rest ih =>
      by_cases hp : p.1 = k
      · simp [dictInsert, hp]
      · have h2 : (dictGet k rest).isSome := by
          simpa [dictGet, hp] using h
        simp [dictInsert, hp, ih h2]

theorem keys_dictInsert_of_none {α β : Type} [DecidableEq α] (k : α) (v : β)
    (l : List (α × β)) (h : dictGet k l = none) :
    (dictInsert k v l).map Prod.fst = l.map Prod.fst ++ [k] := by
  induction l with
  | nil => simp [dictInsert]
  | cons p rest ih =>
      by_cases hp : p.1 = k
      · simp [dictGet, hp] at h
      · have h2 : dictGet k rest = none := by
          simpa [dictGet, hp] using h
        simp [dictInsert, hp, ih h2]

theorem dictGet_isSome_iff_mem_keys {α β : Type} [DecidableEq α] (k : α)
    (l : List (α × β)) : (dictGet k l).isSome ↔ k ∈ l.map Prod.fst := by
  induction l with
  | nil => simp [dictGet]
  | cons p rest ih =>
      by_cases hp : p.1 = k
      · simp [dictGet, hp]
      · rw [List.map_cons]
        simp only [dictGet, if_neg hp, List.mem_cons]
        rw [ih]
        constructor
        · exact fun h => Or.inr h
        · rintro (h | h)
          · exact absurd h.symm hp
          · exact h

theorem mem_of_dictGet_eq_some {α β : Type} [DecidableEq α] {k : α} {v : β}
    {l : List (α × β)} (h : dictGet k l = some v) : (k, v) ∈ l := by
  induction l with
  | nil => simp [dictGet] at h
  | cons p rest ih =>
      by_cases hp : p.1 = k
      · have hv : p.2 = v := by
          simpa [dictGet, hp] using h
        have hpkv : p = (k, v) := by rw [← hp, ← hv]
        exact List.mem_cons.mpr (Or.inl hpkv.symm)
      · right
        exact ih (by simpa [dictGet, hp] using h)

theorem dictGet_eq_some_of_mem {α β : Type} [DecidableEq α] {k : α} {v : β}
    {l : List (α × β)} (hnd : (l.map Prod.fst).Nodup) (h : (k, v) ∈ l) :
    dictGet k l = some v := by
  induction l with
  | nil => simp at h
  | cons p rest ih =>
      rcases List.mem_cons.mp h with h1 | h1
      · simp [← h1, dictGet]
      · have hp : p.1 ≠ k := by
          intro hk
          have : k ∈ rest.map Prod.fst := List.mem_map.mpr ⟨(k, v), h1, rfl⟩
          rw [List.map_cons, List.nodup_cons, hk] at hnd
          exact hnd.1 this
        simp only [dictGet, if_neg hp]
        exact ih (List.nodup_cons.mp (by simpa using hnd)).2 h1

theorem nodup_keys_dictInsert {α β : Type} [DecidableEq α] (k : α) (v : β)
    (l : List (α × β)) (hnd : (l.map Prod.fst).Nodup) :
    ((dictInsert k v l).map Prod.fst).Nodup := by
  cases hs : dictGet k l with
  | none =>
      rw [keys_dictInsert_of_none k v l hs]
      have hk : k ∉ l.map Prod.fst := by
        rw [← dictGet_isSome_iff_mem_keys]
        simp [hs]
      simp [List.nodup_append, hnd, hk]
  | some w =>
      rw [keys_dictInsert_of_isSome k v l (by simp [hs])]
      exact hnd

theorem sum_dictInsert_bump {α : Type} [DecidableEq α] (k : α) (n : Nat)
    (l : List (α × Nat)) :
    ((dictInsert k ((dictGet k l).getD 0 + n) l).map Prod.snd).sum =
      (l.map Prod.snd).sum + n := by
  induction l with
  | nil => simp [dictInsert, dictGet]
  | cons p rest ih =>
      by_cases hp : p.1 = k
      · simp [dictInsert, dictGet, hp]
        omega
      · simp only [dictInsert, if_neg hp, dictGet, List.map_cons, List.sum_cons]
        rw [ih]
        omega

/-! ## Stage-histogram lemmas -/

theorem stageName_mem_or_autre (st : Int) :
    stageName st ∈ stage_labels ∨ stageName st = "Autre" := by
  cases hd : dictGet st srs_stages with
  | none => right; simp [stageName, hd]
  | some nm =>
      left
      have hmem : (st, nm) ∈ srs_stages := mem_of_dictGet_eq_some hd
      have : nm ∈ srs_stages.map Prod.snd := List.mem_map.mpr ⟨(st, nm), hmem, rfl⟩
      simpa [stageName, hd, stage_labels] using this

theorem stageName_mem_of_range (st : Int) (h0 : 0 ≤ st) (h9 : st ≤ 9) :
    stageName st ∈ stage_labels := by
  interval_cases st <;> decide

theorem autre_not_mem_stage_labels : "Autre" ∉ stage_labels := by decide

theorem srs_fold_labels (assignments : List Assignment) :
    ∀ counts : List (String × Nat),
      (counts.map Prod.fst = stage_labels ∨
        counts.map Prod.fst = stage_labels ++ ["Autre"]) →
      ((assignments.foldl
          (fun counts a =>
            let nm := stageName (a.srs_stage.getD 0)
            dictInsert nm ((dictGet nm counts).getD 0 + 1) counts)
          counts).map Prod.fst = stage_labels ∨
        (assignments.foldl
          (fun counts a =>
            let nm := stageName (a.srs_stage.getD 0)
            dictInsert nm ((dictGet nm counts).getD 0 + 1) counts)
          counts).map Prod.fst = stage_labels ++ ["Autre"]) := by
  induction assignments with
  | nil => intro counts hP; exact hP
  | cons a rest ih =>
      intro counts hP
      rw [List.foldl_cons]
      apply ih
      rcases stageName_mem_or_autre (a.srs_stage.getD 0) with hl | hl
      · have hmem : stageName (a.srs_stage.getD 0) ∈ counts.map Prod.fst := by
          rcases hP with hP | hP <;> rw [hP]
          · exact hl
          · exact List.mem_append_left _ hl
        have hsome := (dictGet_isSome_iff_mem_keys _ counts).mpr hmem
        rw [keys_dictInsert_of_isSome _ _ _ hsome]
        exact hP
      · rw [hl]
        rcases hP with hP | hP
        · have hnone : dictGet "Autre" counts = none := by
            rw [← Option.not_isSome_iff_eq_none, dictGet_isSome_iff_mem_keys, hP]
            exact autre_not_mem_stage_labels
          right
          rw [keys_dictInsert_of_none _ _ _ hnone, hP]
        · have hmem : "Autre" ∈ counts.map Prod.fst := by
            rw [hP]
            exact List.mem_append_right _ (by simp)
          have hsome := (dictGet_isSome_iff_mem_keys _ counts).mpr hmem
          right
          rw [keys_dictInsert_of_isSome _ _ _ hsome]
          exact hP

theorem srs_fold_labels_in_range (assignments : List Assignment)
    (hr : ∀ a ∈ assignments, 0 ≤ a.srs_stage.getD 0 ∧ a.srs_stage.getD 0 ≤ 9) :
    ∀ counts : List (String × Nat),
      counts.map Prod.fst = stage_labels →
      (assignments.foldl
          (fun counts a =>
            let nm := stageName (a.srs_stage.getD 0)
            dictInsert nm ((dictGet nm counts).getD 0 + 1) counts)
          counts).map Prod.fst = stage_labels := by
  induction assignments with
  | nil => intro counts hP; exact hP
  | cons a rest ih =>
      intro counts hP
      rw [List.foldl_cons]
      apply ih (fun b hb => hr b (List.mem_cons_of_mem a hb))
      obtain ⟨h0, h9⟩ := hr a (List.mem_cons_self a rest)
      have hl := stageName_mem_of_range _ h0 h9
      have hsome := (dictGet_isSome_iff_mem_keys _ counts).mpr (hP ▸ hl)
      rw [keys_dictInsert_of_isSome _ _ _ hsome]
      exact hP

theorem srs_fold_sum (assignments : List Assignment) :
    ∀ counts : List (String × Nat),
      ((assignments.foldl
          (fun counts a =>
            let nm := stageName (a.srs_stage.getD 0)
            dictInsert nm ((dictGet nm counts).getD 0 + 1) counts)
          counts).map Prod.snd).sum = (counts.map Prod.snd).sum + assignments.length := by
  induction assignments with
  | nil => intro counts; simp
  | cons a rest ih =>
      intro counts
      rw [List.foldl_cons, ih]
      have := sum_dictInsert_bump (stageName (a.srs_stage.getD 0)) 1 counts
      simp only [this]
      simp [Nat.add_comm, Nat.add_assoc, Nat.add_left_comm]

/-! ## Theorems -/

/-- Claim C3 (corrected): the fetch loop does not guard against a repeated
next-page URL: on a server that always advertises the URL just visited
as the next page, no amount of requests completes the loop. -/
theorem C3_counterexample : ¬ FetchTerminates cyclicServer () := by
  rintro ⟨fuel, hfuel⟩
  rw [fetchLoop_cyclic_eq_none fuel] at hfuel
  simp at hfuel

/-- Claim C3 (amended): the paginated fetch client terminates if and only
if the chain of next-page URLs from the start reaches, in finitely many
hops, a page without a next-page URL; in particular it loops forever
when the server keeps advertising an already-visited URL, as the spec
itself flags. -/
theorem C3_fetch_termination {υ ι : Type} (server : υ → Page υ ι) (u : υ) :
    FetchTerminates server u ↔ ReachesEnd server u := by
  constructor
  · rintro ⟨fuel, h⟩
    exact reachesEnd_of_fetch server fuel u h
  · rintro ⟨n, v, hc, hv⟩
    exact ⟨n + 1, fetch_of_reachesEnd server n u v hc hv⟩

/-- Claim C6 (confirmed): on a server serving a fixed page sequence whose
last page alone lacks a next-page URL, the fetch client returns the
concatenation of all pages in page order and in-page order, stopping at
the page without a next-page URL. -/
theorem C6_pagination {ι : Type} (pages : List (List ι)) (fuel : Nat)
    (h : pages.length < fuel) :
    fetchLoop (mkServer pages) fuel 0 = some pages.flatten := by
  have h0 := fetchLoop_mkServer pages fuel 0 (by omega)
  simpa using h0

/-- Concrete instance of `C6_pagination`: three pages with 2, 2 and 1
items accumulate to exactly those 5 items in original order. -/
theorem C6_pagination_witness :
    fetchLoop (mkServer [[1, 2], [3, 4], [5]]) 4 0 = some ([1, 2, 3, 4, 5] : List Nat) := by
  have h := C6_pagination [[1, 2], [3, 4], [5]] 4 (by decide)
  simpa using h

/-- Claim C2 (corrected): `signup` rejects a duplicate username with HTTP
status 400, not 409 Conflict as the claim states. -/
theorem C2_counterexample :
    (signup id (some "alice") (some "pw") ⟨[("alice", "h")], []⟩).1 =
      .error ⟨HTTP_400_BAD_REQUEST, "user already exists"⟩ ∧
    HTTP_400_BAD_REQUEST ≠ HTTP_409_CONFLICT := by
  constructor
  · rfl
  · decide

/-- Claim C2 (amended): `create_account` fails with BadRequest (400) when
either field is empty or missing; when the username is already taken it
fails with status 400 and detail "user already exists" (not 409
Conflict); otherwise it stores the salted hash of the password under the
username and returns success, in every case leaving the rest of the
state untouched. -/
theorem C2_create_account (hash : String → String) (username password : Option String)
    (s : ApiState) :
    (falsy username = true ∨ falsy password = true →
      signup hash username password s =
        (.error ⟨HTTP_400_BAD_REQUEST, "username and password required"⟩, s)) ∧
    (∀ u pw, username = some u → password = some pw → u ≠ "" → pw ≠ "" →
      ((dictGet u s.users).isSome →
        signup hash username password s =
          (.error ⟨HTTP_400_BAD_REQUEST, "user already exists"⟩, s)) ∧
      (dictGet u s.users = none →
        signup hash username password s =
          (.ok "account created", { s with users := dictInsert u (hash pw) s.users }))) := by
  constructor
  · intro h
    exact signup_eq_badfields hash username password s (by rcases h with h | h <;> simp [h])
  · rintro u pw rfl rfl hu hpw
    exact ⟨fun hsome => signup_eq_taken hash u pw s hu hpw hsome,
      fun hnone => signup_eq_ok hash u pw s hu hpw hnone⟩

/-- Concrete instances of the three branches of `C2_create_account`. -/
theorem C2_create_account_witness :
    signup id (some "") (some "pw") ⟨[], []⟩ =
      (.error ⟨HTTP_400_BAD_REQUEST, "username and password required"⟩, ⟨[], []⟩) ∧
    signup id (some "alice") (some "pw") ⟨[("alice", "h")], []⟩ =
      (.error ⟨HTTP_400_BAD_REQUEST, "user already exists"⟩, ⟨[("alice", "h")], []⟩) ∧
    signup id (some "bob") (some "pw") ⟨[], []⟩ =
      (.ok "account created", ⟨[("bob", "pw")], []⟩) := by
  refine ⟨?_, ?_, ?_⟩
  · exact (C2_create_account id (some "") (some "pw") ⟨[], []⟩).1 (Or.inl (by decide))
  · exact ((C2_create_account id (some "alice") (some "pw") ⟨[("alice", "h")], []⟩).2
      "alice" "pw" rfl rfl (by decide) (by decide)).1 (by decide)
  · exact ((C2_create_account id (some "bob") (some "pw") ⟨[], []⟩).2
      "bob" "pw" rfl rfl (by decide) (by decide)).2 rfl

/-- Claim C5 (confirmed): `login` with an unknown username, or with a
provided password the stored hash does not verify, returns 401
Unauthorized and leaves the whole state — in particular the token map —
unchanged; on success it returns exactly the freshly generated token,
which afterwards maps to the username.  (A *missing* password field with
a known user is a different path: `pwd_context.verify(None, hashed)`
raises an uncaught `TypeError`, see `login_eq_missingpw`; the claim's
wrong-password case is about a provided password.) -/
theorem C5_login (verify : String → String → Bool) (tok : String)
    (username password : Option String) (s : ApiState) :
    (∀ u, username = some u → dictGet u s.users = none →
      login verify tok username password s =
        (.error (.http ⟨HTTP_401_UNAUTHORIZED, "invalid credentials"⟩), s)) ∧
    (∀ u h pw, username = some u → dictGet u s.users = some h →
      password = some pw → verify pw h = false →
      login verify tok username password s =
        (.error (.http ⟨HTTP_401_UNAUTHORIZED, "invalid credentials"⟩), s)) ∧
    (∀ u h pw, username = some u → dictGet u s.users = some h → h ≠ "" →
      password = some pw → verify pw h = true →
      login verify tok username password s =
        (.ok tok, { s with tokens := dictInsert tok u s.tokens }) ∧
      dictGet tok (login verify tok username password s).2.tokens = some u) := by
  refine ⟨?_, ?_, ?_⟩
  · rintro u rfl hget
    exact login_eq_unknown verify tok u password s hget
  · rintro u h pw rfl hget rfl hv
    exact login_eq_badpw verify tok u h pw s hget hv
  · rintro u h pw rfl hget hE rfl hv
    have hlog := login_eq_ok verify tok u h pw s hget hE hv
    exact ⟨hlog, by rw [hlog]; exact dictGet_dictInsert_self tok u s.tokens⟩

/-- Concrete instances of the three branches of `C5_login`. -/
theorem C5_login_witness :
    login (fun p h => p == h) "t1" (some "bob") (some "x") ⟨[("alice", "secret")], []⟩ =
      (.error (.http ⟨HTTP_401_UNAUTHORIZED, "invalid credentials"⟩),
        ⟨[("alice", "secret")], []⟩) ∧
    login (fun p h => p == h) "t1" (some "alice") (some "x") ⟨[("alice", "secret")], []⟩ =
      (.error (.http ⟨HTTP_401_UNAUTHORIZED, "invalid credentials"⟩),
        ⟨[("alice", "secret")], []⟩) ∧
    login (fun p h => p == h) "t1" (some "alice") (some "secret") ⟨[("alice", "secret")], []⟩ =
      (.ok "t1", ⟨[("alice", "secret")], [("t1", "alice")]⟩) := by
  refine ⟨?_, ?_, ?_⟩
  · exact (C5_login (fun p h => p == h) "t1" (some "bob") (some "x")
      ⟨[("alice", "secret")], []⟩).1 "bob" rfl (by decide)
  · exact (C5_login (fun p h => p == h) "t1" (some "alice") (some "x")
      ⟨[("alice", "secret")], []⟩).2.1 "alice" "secret" "x" rfl (by decide) rfl (by decide)
  · exact ((C5_login (fun p h => p == h) "t1" (some "alice") (some "secret")
      ⟨[("alice", "secret")], []⟩).2.2 "alice" "secret" "secret" rfl (by decide) (by decide)
      rfl (by decide)).1

/-- Claim C10 (confirmed): if every issued token maps to a stored
username, this still holds after any `signup` or `login` call, whether
it succeeds, raises an `HTTPException`, or lets the missing-password
`TypeError` escape: `signup` only ever adds users, every raise happens
before any mutation, and `login` only associates a token with a
username it just found in `users`. -/
theorem C10_token_invariant (hash : String → String) (verify : String → String → Bool)
    (tok : String) (su sp lu lp : Option String) (s : ApiState)
    (hs : TokensValid s) :
    TokensValid (signup hash su sp s).2 ∧ TokensValid (login verify tok lu lp s).2 := by
  constructor
  · by_cases hf : (falsy su || falsy sp) = true
    · rw [signup_eq_badfields hash su sp s hf]
      exact hs
    · have hsu : ∃ u, su = some u ∧ u ≠ "" := by
        cases su with
        | none => simp [falsy] at hf
        | some u =>
            refine ⟨u, rfl, ?_⟩
            intro hu
            simp [falsy, hu] at hf
      have hsp : ∃ pw, sp = some pw ∧ pw ≠ "" := by
        cases sp with
        | none => simp [falsy] at hf
        | some pw =>
            refine ⟨pw, rfl, ?_⟩
            intro hpw
            simp [falsy, hpw] at hf
      obtain ⟨u, rfl, hu⟩ := hsu
      obtain ⟨pw, rfl, hpw⟩ := hsp
      by_cases hd : (dictGet u s.users).isSome
      · rw [signup_eq_taken hash u pw s hu hpw hd]
        exact hs
      · rw [signup_eq_ok hash u pw s hu hpw (Option.not_isSome_iff_eq_none.mp hd)]
        intro q hq
        have hq2 := hs q hq
        by_cases he : q.2 = u
        · simp [he, dictGet_dictInsert_self]
        · simpa [dictGet_dictInsert_ne _ _ _ _ (fun h => he h.symm)] using hq2
  · cases lu with
    | none =>
        rw [login_eq_nouser]
        exact hs
    | some u =>
        cases hget : dictGet u s.users with
        | none =>
            rw [login_eq_unknown verify tok u lp s hget]
            exact hs
        | some h =>
            by_cases hE : h = ""
            · subst hE
              rw [login_eq_emptyhash verify tok u lp s hget]
              exact hs
            · cases lp with
              | none =>
                  rw [login_eq_missingpw verify tok u h s hget hE]
                  exact hs
              | some pw =>
                  by_cases hv : verify pw h = true
                  · rw [login_eq_ok verify tok u h pw s hget hE hv]
                    intro q hq
                    rcases mem_dictInsert hq with hq1 | hq1
                    · subst hq1
                      simp [hget]
                    · exact hs q hq1
                  · rw [login_eq_badpw verify tok u h pw s hget
                      (Bool.not_eq_true _ ▸ hv : verify pw h = false)]
                    exact hs

/-- Concrete instance of `C10_token_invariant`: a state with one user
and one valid token stays well-formed across a signup and a login. -/
theorem C10_token_invariant_witness :
    TokensValid (signup id (some "bob") (some "pw")
      ⟨[("alice", "h1")], [("t0", "alice")]⟩).2 ∧
    TokensValid (login (fun p h => p == h) "t1" (some "alice") (some "h1")
      ⟨[("alice", "h1")], [("t0", "alice")]⟩).2 :=
  C10_token_invariant id (fun p h => p == h) "t1" (some "bob") (some "pw")
    (some "alice") (some "h1") ⟨[("alice", "h1")], [("t0", "alice")]⟩
    (by intro p hp
        simp only [List.mem_singleton] at hp
        subst hp
        decide)

/-- Claim C1 (corrected): one assignment whose stage is 10 makes the
histogram emit an eleventh bucket labelled "Autre" after the ten
canonical labels, so the bucket labels are not exactly the 10 canonical
stage names. -/
theorem C1_counterexample :
    (build_srs_dataframe [⟨some 10⟩]).map Prod.fst = stage_labels ++ ["Autre"] ∧
    (build_srs_dataframe [⟨some 10⟩]).map Prod.fst ≠ stage_labels := by
  constructor <;> decide

/-- Claim C1 (amended): when every assignment's stage (default 0 if
absent) lies in 0–9, the histogram's bucket labels are exactly the 10
canonical stage names in canonical order; in general an out-of-range
stage falls into the single catch-all "Autre" bucket, which appears as
one extra label appended after the canonical ten — never any other
label; every count is a non-negative integer. -/
theorem C1_stage_histogram (assignments : List Assignment) :
    ((∀ a ∈ assignments, 0 ≤ a.srs_stage.getD 0 ∧ a.srs_stage.getD 0 ≤ 9) →
      (build_srs_dataframe assignments).map Prod.fst = stage_labels) ∧
    ((build_srs_dataframe assignments).map Prod.fst = stage_labels ∨
      (build_srs_dataframe assignments).map Prod.fst = stage_labels ++ ["Autre"]) ∧
    (∀ p ∈ build_srs_dataframe assignments, 0 ≤ p.2) := by
  have hc0 : (stage_labels.map (fun nm => (nm, (0 : Nat)))).map Prod.fst = stage_labels := by
    simp [List.map_map]
    exact List.map_id stage_labels
  refine ⟨?_, ?_, ?_⟩
  · intro hr
    exact srs_fold_labels_in_range assignments hr _ hc0
  · exact srs_fold_labels assignments _ (Or.inl hc0)
  · intro p _
    exact Nat.zero_le p.2

/-- Concrete instance of `C1_stage_histogram`: with stages 3 and
(defaulted) 0 the labels are exactly the ten canonical ones. -/
theorem C1_stage_histogram_witness :
    (build_srs_dataframe [⟨some 3⟩, ⟨none⟩]).map Prod.fst = stage_labels :=
  (C1_stage_histogram [⟨some 3⟩, ⟨none⟩]).1 (by decide)

/-- Claim C8 (confirmed): the bucket counts of the stage histogram sum to
the number of input assignments — each assignment increments exactly one
bucket, its stage defaulting to 0 when absent. -/
theorem C8_histogram_total (assignments : List Assignment) :
    ((build_srs_dataframe assignments).map Prod.snd).sum = assignments.length := by
  have h := srs_fold_sum assignments (stage_labels.map (fun nm => (nm, (0 : Nat))))
  have hz : ((stage_labels.map (fun nm => (nm, (0 : Nat)))).map Prod.snd).sum = 0 := by
    decide
  rw [build_srs_dataframe]
  rw [h, hz, Nat.zero_add]

/-- Claim C4 (confirmed): the mock's `get_summary` puts the review blocks
under `data.reviews.upcoming`, while `build_review_schedule` iterates
`data.reviews` itself; iterating that mapping yields its string key
`"upcoming"`, and the per-block `review_block.get("available_at")` call
on a string raises `AttributeError` outside any `try`, so the call
errors instead of producing a histogram of the upcoming blocks —
whatever the timestamp string, the current instant or the parser. -/
theorem C4_shape_mismatch (parse : String → Option Nat) (now : Nat) (nowStr : String) :
    build_review_schedule_dyn parse now (mock_get_summary nowStr) =
      .error (.attributeError "get") := rfl

/-- Claim C9 (confirmed): a review block whose `available_at` is missing,
empty, or fails to parse contributes nothing: deleting it from the input
leaves the whole histogram unchanged, so one malformed timestamp is
never fatal to the aggregation of the remaining blocks. -/
theorem C9_malformed_skipped (parse : String → Option Nat) (now : Nat)
    (l1 l2 : List ReviewBlock) (rb : ReviewBlock)
    (hbad : rb.available_at = none ∨
      ∃ s, rb.available_at = some s ∧ (s = "" ∨ parse s = none)) :
    build_review_schedule parse now (l1 ++ rb :: l2) =
      build_review_schedule parse now (l1 ++ l2) := by
  have hstep : ∀ hours, scheduleStep parse now hours rb = hours := by
    intro hours
    rcases hbad with h | ⟨s, hs, h⟩
    · simp [scheduleStep, h]
    · rcases h with h | h
      · simp [scheduleStep, hs, h]
      · simp [scheduleStep, hs, h]
  unfold build_review_schedule
  rw [List.foldl_append, List.foldl_append, List.foldl_cons, hstep]

/-- A generic step: Pairwise `≤` plus Pairwise `≠` gives Pairwise `<`. -/
theorem pairwise_lt_of_le_of_ne {l : List Nat}
    (h1 : l.Pairwise (· ≤ ·)) (h2 : l.Pairwise (· ≠ ·)) : l.Pairwise (· < ·) := by
  induction l with
  | nil => exact List.Pairwise.nil
  | cons a l ih =>
      rcases List.pairwise_cons.mp h1 with ⟨ha1, h1a⟩
      rcases List.pairwise_cons.mp h2 with ⟨ha2, h2a⟩
      exact List.pairwise_cons.mpr
        ⟨fun b hb => lt_of_le_of_ne (ha1 b hb) (ha2 b hb), ih h1a h2a⟩

theorem scheduleStep_of_blockHour_none (parse : String → Option Nat) (now : Nat)
    (hours : List (Nat × Nat)) (rb : ReviewBlock)
    (h : blockHour parse now rb = none) :
    scheduleStep parse now hours rb = hours := by
  cases ha : rb.available_at with
  | none => simp [scheduleStep, ha]
  | some s =>
      by_cases hs : s = ""
      · simp [scheduleStep, ha, hs]
      · cases hp : parse s with
        | none => simp [scheduleStep, ha, hs, hp]
        | some t =>
            by_cases hw : now ≤ t ∧ t ≤ now + 24 * 3600
            · exfalso
              simp [blockHour, ha, hs, hp, hw] at h
            · simp [scheduleStep, ha, hs, hp, hw]

theorem scheduleStep_of_blockHour_some (parse : String → Option Nat) (now : Nat)
    (hours : List (Nat × Nat)) (rb : ReviewBlock) (hh : Nat)
    (h : blockHour parse now rb = some hh) :
    scheduleStep parse now hours rb =
      dictInsert hh ((dictGet hh hours).getD 0 + rb.subject_ids.length) hours := by
  cases ha : rb.available_at with
  | none => simp [blockHour, ha] at h
  | some s =>
      by_cases hs : s = ""
      · simp [blockHour, ha, hs] at h
      · cases hp : parse s with
        | none => simp [blockHour, ha, hs, hp] at h
        | some t =>
            by_cases hw : now ≤ t ∧ t ≤ now + 24 * 3600
            · have hft : hourFloor t = hh := by
                simpa [blockHour, ha, hs, hp, hw] using h
              simp [scheduleStep, ha, hs, hp, hw, hft]
            · simp [blockHour, ha, hs, hp, hw] at h

theorem schedule_fold_isSome (parse : String → Option Nat) (now : Nat) :
    ∀ (l : List ReviewBlock) (acc : List (Nat × Nat)) (h : Nat),
      (dictGet h (l.foldl (scheduleStep parse now) acc)).isSome ↔
        ((dictGet h acc).isSome ∨ ∃ rb ∈ l, blockHour parse now rb = some h) := by
  intro l
  induction l with
  | nil => intro acc h; simp
  | cons rb l ih =>
      intro acc h
      rw [List.foldl_cons]
      rw [ih (scheduleStep parse now acc rb) h]
      cases hb : blockHour parse now rb with
      | none =>
          rw [scheduleStep_of_blockHour_none parse now acc rb hb]
          constructor
          · rintro (h1 | h1)
            · exact Or.inl h1
            · obtain ⟨rb2, hm, he⟩ := h1
              exact Or.inr ⟨rb2, List.mem_cons_of_mem _ hm, he⟩
          · rintro (h1 | ⟨rb2, hm, he⟩)
            · exact Or.inl h1
            · rcases List.mem_cons.mp hm with h2 | h2
              · rw [h2] at he
                rw [he] at hb
                exact Option.noConfusion hb
              · exact Or.inr ⟨rb2, h2, he⟩
      | some hh =>
          rw [scheduleStep_of_blockHour_some parse now acc rb hh hb]
          by_cases hhe : hh = h
          · subst hhe
            simp only [dictGet_dictInsert_self, Option.isSome_some, true_or, true_iff]
            exact Or.inr ⟨rb, List.mem_cons_self rb l, hb⟩
          · rw [dictGet_dictInsert_ne hh h _ acc hhe]
            constructor
            · rintro (h1 | ⟨rb2, hm, he⟩)
              · exact Or.inl h1
              · exact Or.inr ⟨rb2, List.mem_cons_of_mem _ hm, he⟩
            · rintro (h1 | ⟨rb2, hm, he⟩)
              · exact Or.inl h1
              · rcases List.mem_cons.mp hm with h2 | h2
                · rw [h2] at he
                  rw [he] at hb
                  exact absurd (Option.some.inj hb).symm hhe
                · exact Or.inr ⟨rb2, h2, he⟩

theorem schedule_fold_value (parse : String → Option Nat) (now : Nat) :
    ∀ (l : List ReviewBlock) (acc : List (Nat × Nat)) (h : Nat) (c : Nat),
      dictGet h (l.foldl (scheduleStep parse now) acc) = some c →
        c = (dictGet h acc).getD 0 + hourSum parse now l h := by
  intro l
  induction l with
  | nil =>
      intro acc h c hget
      rw [List.foldl_nil] at hget
      simp [hourSum, hget]
  | cons rb l ih =>
      intro acc h c hget
      rw [List.foldl_cons] at hget
      have hc := ih (scheduleStep parse now acc rb) h c hget
      cases hb : blockHour parse now rb with
      | none =>
          rw [scheduleStep_of_blockHour_none parse now acc rb hb] at hc
          have hsum : hourSum parse now (rb :: l) h = hourSum parse now l h := by
            simp [hourSum, List.filter_cons, hb]
          rw [hsum]
          exact hc
      | some hh =>
          rw [scheduleStep_of_blockHour_some parse now acc rb hh hb] at hc
          by_cases hhe : hh = h
          · subst hhe
            rw [dictGet_dictInsert_self] at hc
            have hsum : hourSum parse now (rb :: l) hh =
                rb.subject_ids.length + hourSum parse now l hh := by
              simp [hourSum, List.filter_cons, hb]
            rw [hsum]
            simp only [Option.getD_some] at hc
            omega
          · rw [dictGet_dictInsert_ne hh h _ acc hhe] at hc
            have hsum : hourSum parse now (rb :: l) h = hourSum parse now l h := by
              simp [hourSum, List.filter_cons, hb, hhe]
            rw [hsum]
            exact hc

theorem schedule_fold_nodup (parse : String → Option Nat) (now : Nat) :
    ∀ (l : List ReviewBlock) (acc : List (Nat × Nat)),
      ((acc.map Prod.fst).Nodup) →
      (((l.foldl (scheduleStep parse now) acc).map Prod.fst).Nodup) := by
  intro l
  induction l with
  | nil => intro acc hnd; exact hnd
  | cons rb l ih =>
      intro acc hnd
      rw [List.foldl_cons]
      apply ih
      cases hb : blockHour parse now rb with
      | none =>
          rw [scheduleStep_of_blockHour_none parse now acc rb hb]
          exact hnd
      | some hh =>
          rw [scheduleStep_of_blockHour_some parse now acc rb hh hb]
          exact nodup_keys_dictInsert hh _ acc hnd

/-- Claim C7 (confirmed): the review-schedule histogram has a bucket
`(h, c)` exactly when some block survives the window filter
`now ≤ t ≤ now + 24h` with its timestamp flooring to hour `h`, and then
`c` is the sum of `len(subject_ids)` over all such blocks; the buckets
are emitted in strictly increasing hour order. -/
theorem C7_review_schedule (parse : String → Option Nat) (now : Nat)
    (reviews : List ReviewBlock) :
    ((build_review_schedule parse now reviews).map Prod.fst).Pairwise (· < ·) ∧
    (∀ h c, (h, c) ∈ build_review_schedule parse now reviews ↔
      ((∃ rb ∈ reviews, blockHour parse now rb = some h) ∧
        c = hourSum parse now reviews h)) := by
  haveI htot : IsTotal (Nat × Nat) (fun a b : Nat × Nat => a.1 ≤ b.1) :=
    ⟨fun a b => Nat.le_total a.1 b.1⟩
  haveI htrans : IsTrans (Nat × Nat) (fun a b : Nat × Nat => a.1 ≤ b.1) :=
    ⟨fun a b c hab hbc => Nat.le_trans hab hbc⟩
  have hnil : ((([] : List (Nat × Nat)).map Prod.fst).Nodup) := List.nodup_nil
  have hnd := schedule_fold_nodup parse now reviews [] hnil
  have hperm : List.Perm (sortByHour (reviews.foldl (scheduleStep parse now) []))
      (reviews.foldl (scheduleStep parse now) []) :=
    List.perm_insertionSort _ _
  constructor
  · have hsorted : (sortByHour (reviews.foldl (scheduleStep parse now) [])).Pairwise
        (fun a b : Nat × Nat => a.1 ≤ b.1) :=
      List.sorted_insertionSort (fun a b : Nat × Nat => a.1 ≤ b.1)
        (reviews.foldl (scheduleStep parse now) [])
    have hle : ((build_review_schedule parse now reviews).map Prod.fst).Pairwise (· ≤ ·) :=
      List.pairwise_map.mpr hsorted
    have hnd2 : ((build_review_schedule parse now reviews).map Prod.fst).Nodup := by
      have := (hperm.map Prod.fst).nodup_iff
      exact this.mpr hnd
    exact pairwise_lt_of_le_of_ne hle hnd2
  · intro h c
    constructor
    · intro hm
      have hmd : (h, c) ∈ reviews.foldl (scheduleStep parse now) [] :=
        hperm.mem_iff.mp hm
      have hget : dictGet h (reviews.foldl (scheduleStep parse now) []) = some c :=
        dictGet_eq_some_of_mem hnd hmd
      have hsome := (schedule_fold_isSome parse now reviews [] h).mp (by simp [hget])
      have hc := schedule_fold_value parse now reviews [] h c hget
      rcases hsome with h1 | h1
      · simp [dictGet] at h1
      · exact ⟨h1, by simpa [dictGet] using hc⟩
    · rintro ⟨hex, hc⟩
      have hsome := (schedule_fold_isSome parse now reviews [] h).mpr (Or.inr hex)
      obtain ⟨c2, hc2⟩ := Option.isSome_iff_exists.mp hsome
      have hval := schedule_fold_value parse now reviews [] h c2 hc2
      have hcc : c2 = c := by
        rw [hc]
        simpa [dictGet] using hval
      rw [hcc] at hc2
      exact hperm.mem_iff.mpr (mem_of_dictGet_eq_some hc2)

/-- The spec's worked example: blocks one hour and one-and-a-half hours
from now with 2 and 1 subject ids produce a single bucket at the hour of
`now + 1h` with count 3, and a block outside the 24-hour window
contributes nothing (`now` chosen on an hour boundary for readability). -/
theorem schedule_example_sum3 :
    build_review_schedule
        (fun s => if s = "a" then some 39600 else
          if s = "b" then some 41400 else
          if s = "c" then some 360000 else none)
        36000
        [⟨some "a", [1, 2]⟩, ⟨some "b", [3]⟩, ⟨some "c", [4, 5]⟩] =
      [(39600, 3)] := by decide

/-- Concrete instance of `C9_malformed_skipped`: a block with an
unparseable timestamp between two good blocks changes nothing. -/
theorem C9_malformed_skipped_witness :
    build_review_schedule (fun s => if s = "t1" then some 7200 else none) 0
        [⟨some "t1", [1, 2]⟩, ⟨some "oops", [9]⟩] =
      build_review_schedule (fun s => if s = "t1" then some 7200 else none) 0
        [⟨some "t1", [1, 2]⟩] := by
  have h := C9_malformed_skipped (fun s => if s = "t1" then some 7200 else none) 0
    [⟨some "t1", [1, 2]⟩] [] ⟨some "oops", [9]⟩
    (Or.inr ⟨"oops", rfl, Or.inr (by decide)⟩)
  simpa using h

end Wanikani

